import Mathlib

/-!
Verification development for the `imaginer` repository (src/caption.py,
src/rename.py, src/convert.py, src/cli.py).

Python strings are embedded as `List Char` (ASCII fragment; the whitespace
class of the regexes and of `str.strip` is modelled by the ASCII whitespace
characters matched by `\s`). Filesystem state relevant to `rename_file` is
embedded as the list of file names present in the target directory.
-/

namespace Imaginer

/-- Convert a Lean string literal to the `List Char` embedding of a Python
string. -/
def pstr (s : String) : List Char := s.data

/-- ASCII characters matched by the regex class `\s` (and stripped by
`str.strip`). -/
def isPySpace (c : Char) : Bool :=
  c = ' ' || c = '\t' || c = '\n' || c = '\r' || c = '\x0b' || c = '\x0c'

/-- Characters kept by `re.sub(r"[^A-Za-z0-9\s]", "", name)`: ASCII letters,
digits and whitespace. -/
def keepChar (c : Char) : Bool :=
  c.isAlpha || c.isDigit || isPySpace c

/-- One pass of `re.sub(r"\s+", " ", name)`: every maximal run of whitespace
becomes a single `' '`. The flag records whether the previous character was
whitespace (i.e. whether we are inside a run). -/
def collapseAux : Bool → List Char → List Char
  | _, [] => []
  | prevWS, c :: cs =>
    if isPySpace c then
      if prevWS then collapseAux true cs else ' ' :: collapseAux true cs
    else c :: collapseAux false cs

/-- Remove a maximal trailing run of whitespace (the right half of
`str.strip`). -/
def dropTrail : List Char → List Char
  | [] => []
  | c :: cs =>
    let r := dropTrail cs
    if r.isEmpty && isPySpace c then [] else c :: r

/-- `str.strip()`: remove leading and trailing whitespace. -/
def stripL (l : List Char) : List Char :=
  dropTrail (l.dropWhile isPySpace)

/-- caption.py `normalise` (lines 44-47): drop characters outside
`[A-Za-z0-9\s]`, collapse whitespace runs to single spaces, strip. There is
no fallback for the empty result in this variant. -/
def normaliseC (s : List Char) : List Char :=
  stripL (collapseAux false (s.filter keepChar))

/-- rename.py `normalise` (lines 88-94): the same pipeline followed by
`return name or "image"` (Python string truthiness). -/
def normaliseR (s : List Char) : List Char :=
  let t := stripL (collapseAux false (s.filter keepChar))
  if t.isEmpty then pstr "image" else t

/-- `prefix(name, string) = string + name` (rename.py line 68, caption.py
line 15). -/
def preL (name s : List Char) : List Char := s ++ name

/-- `suffix(name, string) = name + string` (rename.py line 71, caption.py
line 20). -/
def sufL (name s : List Char) : List Char := name ++ s

/-- `glue(name, string) = name.replace(" ", string)` (rename.py line 74,
caption.py line 25). -/
def glueL (name s : List Char) : List Char :=
  match name with
  | [] => []
  | c :: cs => (if c = ' ' then s else [c]) ++ glueL cs s

/-- Python `str.title()` on the ASCII fragment: a letter that follows a
letter is lowercased, a letter that follows a non-letter (or starts the
string) is uppercased. The flag records whether the previous character was a
letter. -/
def titleAux : Bool → List Char → List Char
  | _, [] => []
  | prevAlpha, c :: cs =>
    if c.isAlpha then
      (if prevAlpha then c.toLower else c.toUpper) :: titleAux true cs
    else c :: titleAux false cs

/-- Python `str.capitalize()`: first character uppercased, the rest
lowercased. -/
def capitalizeL : List Char → List Char
  | [] => []
  | c :: cs => c.toUpper :: cs.map Char.toLower

/-- `case(name, case_type)` (rename.py lines 77-86, caption.py lines
30-40): dispatch on the `case_type` string, identity for any other value. -/
def caseL (name ct : List Char) : List Char :=
  if ct = pstr "upper" then name.map Char.toUpper
  else if ct = pstr "lower" then name.map Char.toLower
  else if ct = pstr "title" then titleAux false name
  else if ct = pstr "sentence" then capitalizeL name
  else name

/-- Optional naming flags of the drivers (`--glue`, `--prefix`, `--suffix`,
`--case`), each `None` by default. -/
structure NameOpts where
  glu : Option (List Char)
  pre : Option (List Char)
  suf : Option (List Char)
  cas : Option (List Char)

/-- Python truthiness of an optional string flag: `None` and `""` are
falsy. -/
def truthy : Option (List Char) → Bool
  | none => false
  | some s => !s.isEmpty

/-- The glue step as guarded in the drivers (`if args.glue: name = glue(name,
args.glue)`). -/
def glueStep (o : NameOpts) (n : List Char) : List Char :=
  if truthy o.glu then glueL n (o.glu.getD []) else n

/-- The prefix step as guarded in the drivers. -/
def preStep (o : NameOpts) (n : List Char) : List Char :=
  if truthy o.pre then preL n (o.pre.getD []) else n

/-- The suffix step as guarded in the drivers. -/
def sufStep (o : NameOpts) (n : List Char) : List Char :=
  if truthy o.suf then sufL n (o.suf.getD []) else n

/-- The case step as guarded in the drivers. -/
def caseStep (o : NameOpts) (n : List Char) : List Char :=
  if truthy o.cas then caseL n (o.cas.getD []) else n

/-- rename.py `__main__` naming chain (lines 163-172): normalise, then the
four guarded steps in source order. -/
def applyOptsR (o : NameOpts) (raw : List Char) : List Char :=
  let n0 := normaliseR raw
  let n1 := if truthy o.glu then glueL n0 (o.glu.getD []) else n0
  let n2 := if truthy o.pre then preL n1 (o.pre.getD []) else n1
  let n3 := if truthy o.suf then sufL n2 (o.suf.getD []) else n2
  if truthy o.cas then caseL n3 (o.cas.getD []) else n3

/-- cli.py `handle_rename.process_one` naming chain (lines 160-168); it
imports and composes the rename.py functions in the same order. -/
def applyOptsCli (o : NameOpts) (raw : List Char) : List Char :=
  let n0 := normaliseR raw
  let n1 := if truthy o.glu then glueL n0 (o.glu.getD []) else n0
  let n2 := if truthy o.pre then preL n1 (o.pre.getD []) else n1
  let n3 := if truthy o.suf then sufL n2 (o.suf.getD []) else n2
  if truthy o.cas then caseL n3 (o.cas.getD []) else n3

/-- caption.py `__main__` naming chain (lines 91-100): caption.py's
`normalise` (no fallback), then the same four guarded steps. -/
def applyOptsC (o : NameOpts) (raw : List Char) : List Char :=
  let n0 := normaliseC raw
  let n1 := if truthy o.glu then glueL n0 (o.glu.getD []) else n0
  let n2 := if truthy o.pre then preL n1 (o.pre.getD []) else n1
  let n3 := if truthy o.suf then sufL n2 (o.suf.getD []) else n2
  if truthy o.cas then caseL n3 (o.cas.getD []) else n3

/-- Decimal digit character, `'0'` to `'9'` (the rendering used by Python
f-strings for the probe counter). -/
def dchar (d : Nat) : Char := Char.ofNat (48 + d)

/-- Fuel-driven big-endian decimal rendering of a natural number; correct
whenever `n ≤ fuel` (see `numRender_eval`). -/
def numRender : Nat → Nat → List Char
  | 0, _ => []
  | fuel + 1, n =>
    if n < 10 then [dchar n] else numRender fuel (n / 10) ++ [dchar (n % 10)]

/-- Decimal rendering of a natural number, as produced by `f"{counter}"`. -/
def numChars (n : Nat) : List Char := numRender (n + 1) n

/-- `os.path.splitext` restricted to a bare file name: split at the last dot,
except that a dot with only dots before it does not start an extension
(`".bashrc"` has no extension). -/
def splitext (s : List Char) : List Char × List Char :=
  match s.reverse.findIdx? (fun c => c = '.') with
  | none => (s, [])
  | some i =>
    let p := s.length - 1 - i
    if (s.takeWhile (fun c => c = '.')).length < p then (s.take p, s.drop p)
    else (s, [])

/-- The `while os.path.exists(new_path)` probe shared by both `rename_file`
variants: starting at counter `k`, return the first candidate `mk k`,
`mk (k+1)`, ... that is not in the directory listing `fs`. `fuel` bounds the
number of iterations so the function is total; `fs.length + 1` probes always
suffice (see `probeFrom_total`). -/
def probeFrom (fs : List (List Char)) (mk : Nat → List Char) :
    Nat → Nat → Option (List Char)
  | 0, _ => none
  | fuel + 1, k => if mk k ∈ fs then probeFrom fs mk fuel (k + 1) else some (mk k)

/-- The target-finding loop of `rename_file`: use the initially desired name
if free, otherwise probe suffixed candidates with counters 1, 2, 3, ... -/
def findTarget (fs : List (List Char)) (init : List Char)
    (mk : Nat → List Char) (fuel : Nat) : Option (List Char) :=
  if init ∈ fs then probeFrom fs mk fuel 1 else some init

/-- Probe candidate `f"{base}{counter}{ext}"` of caption.py `rename_file`
(line 68), with `(base, ext) = splitext(new_name)`. -/
def candC (newName : List Char) (k : Nat) : List Char :=
  (splitext newName).1 ++ (numChars k ++ (splitext newName).2)

/-- caption.py `rename_file` (lines 62-71): the name the file is renamed to,
given the names `fs` present in the directory. The initial candidate is
`new_name` itself; collisions probe `candC` with counters 1, 2, ... The
original path's extension is never consulted. -/
def renameTargetC (fs : List (List Char)) (newName : List Char)
    (fuel : Nat) : Option (List Char) :=
  findTarget fs newName (candC newName) fuel

/-- Extension used by rename.py `rename_file` (lines 114-117): the extension
of the supplied name, or the original path's extension when the supplied name
has none. -/
def extR (path newName : List Char) : List Char :=
  if (splitext newName).2.isEmpty then (splitext path).2 else (splitext newName).2

/-- Initial target of rename.py `rename_file` (line 118): `base + ext`. -/
def initR (path newName : List Char) : List Char :=
  (splitext newName).1 ++ extR path newName

/-- Probe candidate `f"{base}_{counter}{ext}"` of rename.py `rename_file`
(line 123). -/
def candR (path newName : List Char) (k : Nat) : List Char :=
  (splitext newName).1 ++ '_' :: (numChars k ++ extR path newName)

/-- rename.py `rename_file` (lines 112-126): initial target `base + ext`
(reusing the original extension if the supplied name has none), collisions
probe `candR` with counters 1, 2, ... -/
def renameTargetR (fs : List (List Char)) (path newNameWithExt : List Char)
    (fuel : Nat) : Option (List Char) :=
  findTarget fs (initR path newNameWithExt) (candR path newNameWithExt) fuel

/-- Python parameter list of `convert.convert_image` (convert.py line 12). -/
def convertImageParams : List String := ["image", "fmt"]

/-- Python parameter list of `convert.max_size` (convert.py line 37). -/
def maxSizeParams : List String := ["image", "max_width", "max_height"]

/-- Python parameter list of `convert.compress_image` (convert.py line 45). -/
def compressImageParams : List String := ["image", "quality"]

/-- Python call-binding check: `npos` positional arguments must fit, and every
keyword argument must name a parameter not already bound positionally;
otherwise the call raises `TypeError` before the body runs. -/
def callOk (params : List String) (npos : Nat) (kw : List String) : Bool :=
  npos ≤ params.length && kw.all (fun k => (params.drop npos).contains k)

/-- The image operations (and the plain copy) a `process_one` run can
perform. -/
inductive ImgOp
  | convert
  | resize
  | compress
  | copy
deriving DecidableEq, Repr

/-- Attempt one library call inside cli.py's `process_one`: if a previous call
already raised, nothing happens; if the binding is invalid the state records a
`TypeError`; otherwise the operation completes. -/
def attemptCall (params : List String) (npos : Nat) (kw : List String)
    (op : ImgOp) (st : List ImgOp × Option String) :
    List ImgOp × Option String :=
  match st.2 with
  | some _ => st
  | none =>
    if callOk params npos kw then (st.1 ++ [op], none)
    else (st.1, some "TypeError")

/-- Arguments of the `convert` subcommand of cli.py relevant to
`process_one` (lines 74-112). -/
structure CArgs where
  format : Option String
  maxWidth : Option Int
  maxHeight : Option Int
  compress : Option Int
  replace : Bool

/-- cli.py `handle_convert.process_one` (lines 74-112), recording which image
operations complete and whether a call raises `TypeError`. In the `--replace`
branch, `convert_image` is called with the keyword `remove_original`; in the
default branch, `convert_image`, `max_size` and `compress_image` are called
with the keyword `out_path`; the convert.py functions accept neither. -/
def processOneCli (a : CArgs) : List ImgOp × Option String :=
  if a.replace then
    let s1 :=
      if a.format.isSome then
        attemptCall convertImageParams 2 ["remove_original"] .convert ([], none)
      else ([], none)
    let s2 :=
      if a.maxWidth.isSome || a.maxHeight.isSome then
        attemptCall maxSizeParams 3 [] .resize s1
      else s1
    if a.compress.isSome then attemptCall compressImageParams 2 [] .compress s2
    else s2
  else
    if a.format.isSome then
      let s1 := attemptCall convertImageParams 2 ["out_path"] .convert ([], none)
      let s2 :=
        if a.maxWidth.isSome || a.maxHeight.isSome then
          attemptCall maxSizeParams 3 ["out_path"] .resize s1
        else s1
      if a.compress.isSome then
        attemptCall compressImageParams 2 ["out_path"] .compress s2
      else s2
    else if a.maxWidth.isNone && a.maxHeight.isNone && a.compress.isNone then
      ([ImgOp.copy], none)
    else
      let s2 :=
        if a.maxWidth.isSome || a.maxHeight.isSome then
          attemptCall maxSizeParams 3 ["out_path"] .resize ([], none)
        else ([], none)
      if a.compress.isSome then
        attemptCall compressImageParams 2 ["out_path"] .compress s2
      else s2

/-- What the provided path argument resolves to. -/
inductive PathKind
  | dir
  | file
  | missing
deriving DecidableEq

/-- `IMAGE_EXTS` of convert.py (line 7), also used by both cli.py handlers. -/
def imageExtsConv : List (List Char) :=
  [pstr ".jpg", pstr ".jpeg", pstr ".png", pstr ".webp", pstr ".bmp",
   pstr ".tiff", pstr ".tif", pstr ".gif"]

/-- `IMAGE_EXTS` of rename.py (line 8). -/
def imageExtsRename : List (List Char) :=
  [pstr ".jpg", pstr ".jpeg", pstr ".png", pstr ".webp"]

/-- Python `str.lower()` on the ASCII fragment. -/
def lowerL (l : List Char) : List Char := l.map Char.toLower

/-- cli.py `handle_convert` dispatch (lines 114-140): exit code as a function
of what the path resolves to, the single file's extension, and the outcome of
`process_one` on it. Directory runs always return 0. -/
def handleConvertExit (k : PathKind) (sfx : List Char)
    (proc : Except String Unit) : Nat :=
  match k with
  | .dir => 0
  | .file =>
    if lowerL sfx ∈ imageExtsConv then
      match proc with
      | .ok _ => 0
      | .error _ => 1
    else 2
  | .missing => 2

/-- Whether cli.py `handle_convert` invokes `process_one` on the single
provided file (it does not in the unsupported-extension and missing-path
branches). -/
def handleConvertTouches (k : PathKind) (sfx : List Char) : Bool :=
  match k with
  | .file => decide (lowerL sfx ∈ imageExtsConv)
  | _ => false

/-- cli.py `handle_rename` dispatch (lines 177-200): same structure as
`handle_convert`, with the same extension set imported from convert.py. -/
def handleRenameExit (k : PathKind) (sfx : List Char)
    (proc : Except String Unit) : Nat :=
  match k with
  | .dir => 0
  | .file =>
    if lowerL sfx ∈ imageExtsConv then
      match proc with
      | .ok _ => 0
      | .error _ => 1
    else 2
  | .missing => 2

/-- Whether cli.py `handle_rename` invokes `process_one` on the single
provided file. -/
def handleRenameTouches (k : PathKind) (sfx : List Char) : Bool :=
  match k with
  | .file => decide (lowerL sfx ∈ imageExtsConv)
  | _ => false

/-- rename.py `__main__` dispatch (lines 140-181): exit status of the process.
A directory run exits 0 (`SystemExit(0)` when empty, falling off the end
otherwise); a single path that is not an existing file with a recognised
extension exits 1; otherwise the loop prints per-file errors and the process
exits 0 regardless of failures. -/
def renameMainExit (isDir : Bool) (fileExists : Bool) (sfx : List Char) : Nat :=
  if isDir then 0
  else if fileExists && decide (lowerL sfx ∈ imageExtsRename) then 0
  else 1

/-- The guarded batch loop of convert.py `__main__` (lines 93-98), cli.py
`handle_convert` (lines 120-125) and cli.py `handle_rename` (lines 182-186):
each file's whole processing is wrapped in `try/except`, a failure is
reported against that file, and the loop continues. Returns the number of
files processed successfully and the per-file failures in order. -/
def runBatchGuarded {α ε : Type} (f : α → Except ε Unit) :
    List α → Nat × List (α × ε)
  | [] => (0, [])
  | x :: xs =>
    let r := runBatchGuarded f xs
    match f x with
    | .ok _ => (r.1 + 1, r.2)
    | .error e => (r.1, (x, e) :: r.2)

/-- The rename.py `__main__` loop (lines 156-180): name generation is guarded
by its own `try/except` (failure reported, `continue`), the pure naming chain
is applied, and the rename call is guarded by a second `try/except`.
`gen` is the external caption source, `ext x` the original extension appended
at line 177, `ren` the rename call. -/
def renameMainLoop {α ε : Type} (gen : α → Except ε (List Char))
    (o : NameOpts) (ext : α → List Char)
    (ren : α → List Char → Except ε Unit) :
    List α → Nat × List (α × ε)
  | [] => (0, [])
  | x :: xs =>
    let r := renameMainLoop gen o ext ren xs
    match gen x with
    | .error e => (r.1, (x, e) :: r.2)
    | .ok raw =>
      match ren x (applyOptsR o raw ++ ext x) with
      | .ok _ => (r.1 + 1, r.2)
      | .error e => (r.1, (x, e) :: r.2)

/-- The caption.py `__main__` loop (lines 87-104): the per-file body is not
wrapped in any `try/except`, so the first exception propagates and aborts the
loop. Returns the files fully processed before the abort and the escaped
error, if any. -/
def captionBatchLoop {α ε : Type} (f : α → Except ε Unit) :
    List α → List α × Option ε
  | [] => ([], none)
  | x :: xs =>
    match f x with
    | .ok _ =>
      let r := captionBatchLoop f xs
      (x :: r.1, r.2)
    | .error e => ([], some e)

/-- Decidable equality for `Except`, used to evaluate the batch-loop models
on concrete inputs. -/
instance instDecEqExcept {ε α : Type} [DecidableEq ε] [DecidableEq α] :
    DecidableEq (Except ε α) := fun x y =>
  match x, y with
  | .ok a, .ok b =>
    if h : a = b then isTrue (by rw [h])
    else isFalse (by intro hh; injection hh; contradiction)
  | .error a, .error b =>
    if h : a = b then isTrue (by rw [h])
    else isFalse (by intro hh; injection hh; contradiction)
  | .ok _, .error _ => isFalse (by intro hh; injection hh)
  | .error _, .ok _ => isFalse (by intro hh; injection hh)

/-- Invariant of whitespace-collapsed text: every whitespace character is a
plain `' '` and no whitespace character follows another one. The flag records
whether the (virtual) previous character was whitespace; with flag `true` the
list may not start with whitespace at all. -/
def okRun : Bool → List Char → Prop
  | _, [] => True
  | prevWS, c :: cs =>
    (isPySpace c = true → c = ' ' ∧ prevWS = false) ∧ okRun (isPySpace c) cs

/-- The first character, if any, is not whitespace. -/
def headNotSpB : List Char → Bool
  | [] => true
  | c :: _ => !isPySpace c

/-- The last character, if any, is not whitespace. -/
def lastNotSpB : List Char → Bool
  | [] => true
  | [c] => !isPySpace c
  | _ :: c :: cs => lastNotSpB (c :: cs)

/-! Lemmas about the normalisation pipeline. -/

theorem isPySpace_blank : isPySpace ' ' = true := by decide

theorem keepChar_blank : keepChar ' ' = true := by decide

theorem okRun_collapseAux (s : List Char) : ∀ b, okRun b (collapseAux b s) := by
  induction s with
  | nil => intro b; simp [collapseAux, okRun]
  | cons c cs ih =>
    intro b
    by_cases hc : isPySpace c
    · cases b with
      | true => simpa [collapseAux, hc] using ih true
      | false =>
        simp only [collapseAux, hc, if_true, if_false, Bool.false_eq_true]
        exact ⟨fun _ => ⟨rfl, rfl⟩, by simpa [isPySpace_blank] using ih true⟩
    · simp only [collapseAux, hc, if_false, Bool.false_eq_true]
      refine ⟨fun h => absurd h (by simp [hc]), ?_⟩
      simpa [hc] using ih false

theorem collapseAux_eq_self : ∀ (l : List Char) (b : Bool), okRun b l → collapseAux b l = l := by
  intro l
  induction l with
  | nil => intro b _; rfl
  | cons c cs ih =>
    intro b h
    obtain ⟨h1, h2⟩ := h
    by_cases hc : isPySpace c
    · obtain ⟨hblank, hb⟩ := h1 hc
      subst hb
      simp only [collapseAux, hc, if_true, Bool.false_eq_true, if_false]
      rw [hblank]
      have := ih true (by rwa [hc] at h2)
      rw [this]
    · simp only [collapseAux, hc, if_false, Bool.false_eq_true]
      rw [ih false (by simpa [hc] using h2)]

theorem okRun_false_of_true (l : List Char) (h : okRun true l) : okRun false l := by
  cases l with
  | nil => trivial
  | cons c cs =>
    obtain ⟨h1, h2⟩ := h
    exact ⟨fun hc => absurd (h1 hc).2 (by simp), h2⟩

theorem dropWhile_eq_self_of_okTrue (l : List Char) (h : okRun true l) :
    l.dropWhile isPySpace = l := by
  cases l with
  | nil => rfl
  | cons c cs =>
    have hc : isPySpace c = false := by
      by_contra hcc
      have := (h.1 (by simpa using hcc)).2
      simp at this
    simp [List.dropWhile_cons, hc]

theorem okRun_dropWhile (l : List Char) (h : okRun false l) :
    okRun true (l.dropWhile isPySpace) := by
  cases l with
  | nil => trivial
  | cons c cs =>
    obtain ⟨h1, h2⟩ := h
    by_cases hc : isPySpace c
    · rw [hc] at h2
      simp only [List.dropWhile_cons, hc, if_true]
      rw [dropWhile_eq_self_of_okTrue cs h2]
      exact h2
    · simp only [List.dropWhile_cons, hc, if_false, Bool.false_eq_true]
      exact ⟨fun hcc => absurd hcc (by simp [hc]), by simpa [hc] using h2⟩

theorem okRun_dropTrail : ∀ (l : List Char) (b : Bool), okRun b l → okRun b (dropTrail l) := by
  intro l
  induction l with
  | nil => intro b _; trivial
  | cons c cs ih =>
    intro b h
    obtain ⟨h1, h2⟩ := h
    by_cases hcond : (dropTrail cs).isEmpty && isPySpace c
    · simp only [dropTrail, hcond, if_true]
      trivial
    · simp only [dropTrail, hcond, Bool.false_eq_true, if_false]
      exact ⟨h1, ih (isPySpace c) h2⟩

theorem headNotSpB_dropWhile (l : List Char) :
    headNotSpB (l.dropWhile isPySpace) = true := by
  induction l with
  | nil => rfl
  | cons c cs ih =>
    by_cases hc : isPySpace c
    · simpa [List.dropWhile_cons, hc] using ih
    · simp [List.dropWhile_cons, hc, headNotSpB]

theorem headNotSpB_dropTrail (l : List Char) (h : headNotSpB l = true) :
    headNotSpB (dropTrail l) = true := by
  cases l with
  | nil => rfl
  | cons c cs =>
    by_cases hcond : (dropTrail cs).isEmpty && isPySpace c
    · simp [dropTrail, hcond, headNotSpB]
    · simpa [dropTrail, hcond, headNotSpB] using h

theorem lastNotSpB_dropTrail (l : List Char) : lastNotSpB (dropTrail l) = true := by
  induction l with
  | nil => rfl
  | cons c cs ih =>
    by_cases hcond : (dropTrail cs).isEmpty && isPySpace c
    · simp [dropTrail, hcond, lastNotSpB]
    · simp only [dropTrail, hcond, Bool.false_eq_true, if_false]
      rcases hr : dropTrail cs with _ | ⟨d, t⟩
      · have hc : isPySpace c = false := by
          rcases Bool.eq_false_or_eq_true (isPySpace c) with h | h
          · exact absurd (by simp [hr, h]) hcond
          · exact h
        simp [lastNotSpB, hc]
      · rw [hr] at ih
        simpa [lastNotSpB] using ih

theorem dropTrail_eq_self : ∀ l : List Char, lastNotSpB l = true → dropTrail l = l := by
  intro l
  induction l with
  | nil => intro _; rfl
  | cons c cs ih =>
    intro h
    cases cs with
    | nil =>
      have hc : isPySpace c = false := by simpa [lastNotSpB] using h
      simp [dropTrail, hc]
    | cons d t =>
      have hdt : dropTrail (d :: t) = d :: t := ih (by simpa [lastNotSpB] using h)
      rw [dropTrail, hdt]
      simp

theorem stripL_eq_self (l : List Char) (h1 : okRun true l) (h2 : lastNotSpB l = true) :
    stripL l = l := by
  rw [stripL, dropWhile_eq_self_of_okTrue l h1, dropTrail_eq_self l h2]

theorem mem_collapseAux : ∀ (s : List Char) (b : Bool) (c : Char),
    c ∈ collapseAux b s → c = ' ' ∨ (c ∈ s ∧ isPySpace c = false) := by
  intro s
  induction s with
  | nil => intro b c h; simp [collapseAux] at h
  | cons d ds ih =>
    intro b c h
    by_cases hd : isPySpace d
    · cases b with
      | true =>
        rw [collapseAux, if_pos hd, if_pos rfl] at h
        rcases ih true c h with h' | h'
        · exact Or.inl h'
        · exact Or.inr ⟨List.mem_cons_of_mem _ h'.1, h'.2⟩
      | false =>
        rw [collapseAux, if_pos hd] at h
        simp only [Bool.false_eq_true, if_false] at h
        rcases List.mem_cons.mp h with h' | h'
        · exact Or.inl h'
        · rcases ih true c h' with h'' | h''
          · exact Or.inl h''
          · exact Or.inr ⟨List.mem_cons_of_mem _ h''.1, h''.2⟩
    · rw [collapseAux, if_neg hd] at h
      rcases List.mem_cons.mp h with h' | h'
      · subst h'
        exact Or.inr ⟨List.mem_cons_self _ _, by rwa [Bool.not_eq_true] at hd⟩
      · rcases ih false c h' with h'' | h''
        · exact Or.inl h''
        · exact Or.inr ⟨List.mem_cons_of_mem _ h''.1, h''.2⟩

theorem mem_of_mem_dropTrail : ∀ (l : List Char) (c : Char), c ∈ dropTrail l → c ∈ l := by
  intro l
  induction l with
  | nil => intro c h; simp [dropTrail] at h
  | cons d ds ih =>
    intro c h
    by_cases hcond : (dropTrail ds).isEmpty && isPySpace d
    · rw [dropTrail] at h
      simp only [hcond, if_true] at h
      simp at h
    · rw [dropTrail] at h
      simp only [hcond, Bool.false_eq_true, if_false] at h
      rcases List.mem_cons.mp h with h' | h'
      · exact h' ▸ List.mem_cons_self _ _
      · exact List.mem_cons_of_mem _ (ih c h')

theorem mem_of_mem_stripL (l : List Char) (c : Char) (h : c ∈ stripL l) : c ∈ l := by
  have h1 := mem_of_mem_dropTrail _ c h
  exact List.dropWhile_subset isPySpace h1

theorem normaliseC_okRun (s : List Char) : okRun true (normaliseC s) :=
  okRun_dropTrail _ true (okRun_dropWhile _ (okRun_collapseAux _ false))

theorem normaliseC_headNotSpB (s : List Char) : headNotSpB (normaliseC s) = true :=
  headNotSpB_dropTrail _ (headNotSpB_dropWhile _)

theorem normaliseC_lastNotSpB (s : List Char) : lastNotSpB (normaliseC s) = true :=
  lastNotSpB_dropTrail _

theorem normaliseC_mem (s : List Char) (c : Char) (h : c ∈ normaliseC s) :
    (c.isAlpha = true ∨ c.isDigit = true ∨ c = ' ') ∧ keepChar c = true := by
  have h1 := mem_of_mem_stripL _ c h
  rcases mem_collapseAux _ false c h1 with h2 | h2
  · exact ⟨Or.inr (Or.inr h2), h2 ▸ keepChar_blank⟩
  · have h3 := List.mem_filter.mp h2.1
    have hk : keepChar c = true := h3.2
    have : c.isAlpha || c.isDigit || isPySpace c := hk
    rcases Bool.or_eq_true_iff.mp this with h4 | h4
    · rcases Bool.or_eq_true_iff.mp h4 with h5 | h5
      · exact ⟨Or.inl h5, hk⟩
      · exact ⟨Or.inr (Or.inl h5), hk⟩
    · rw [h2.2] at h4
      simp at h4

theorem filter_keep_eq_self (l : List Char) (h : ∀ c ∈ l, keepChar c = true) :
    l.filter keepChar = l :=
  List.filter_eq_self.mpr h

theorem normaliseC_fixed (l : List Char) (h1 : okRun true l)
    (h2 : lastNotSpB l = true) (h3 : ∀ c ∈ l, keepChar c = true) :
    normaliseC l = l := by
  rw [normaliseC, filter_keep_eq_self l h3,
    collapseAux_eq_self l false (okRun_false_of_true l h1), stripL_eq_self l h1 h2]

theorem normaliseC_idem (s : List Char) : normaliseC (normaliseC s) = normaliseC s :=
  normaliseC_fixed _ (normaliseC_okRun s) (normaliseC_lastNotSpB s)
    (fun c hc => (normaliseC_mem s c hc).2)

theorem normaliseR_eq (s : List Char) :
    normaliseR s = if (normaliseC s).isEmpty then pstr "image" else normaliseC s := rfl

theorem normaliseR_idem (s : List Char) : normaliseR (normaliseR s) = normaliseR s := by
  rw [normaliseR_eq s]
  by_cases h : (normaliseC s).isEmpty
  · rw [if_pos h]
    decide
  · rw [if_neg h, normaliseR_eq, normaliseC_idem s, if_neg h]

/-! Lemmas about decimal rendering and the collision probe. -/

theorem dchar_toNat : ∀ d, d < 10 → (dchar d).toNat = 48 + d := by decide

theorem numRender_eval : ∀ (fuel n a : Nat), n ≤ fuel →
    (numRender (fuel + 1) n).foldl (fun acc c => 10 * acc + (c.toNat - 48)) a
      = a * 10 ^ (numRender (fuel + 1) n).length + n := by
  intro fuel
  induction fuel with
  | zero =>
    intro n a hn
    interval_cases n
    simp [numRender, dchar_toNat 0 (by omega)]
    ring
  | succ f ih =>
    intro n a hn
    by_cases h10 : n < 10
    · simp [numRender, h10, dchar_toNat n h10]
      ring
    · have hrec : n / 10 ≤ f := by
        have h1 : n / 10 < n := Nat.div_lt_self (by omega) (by omega)
        omega
      rw [numRender, if_neg h10, List.foldl_append, List.length_append]
      rw [ih (n / 10) a hrec]
      have hmod : (dchar (n % 10)).toNat = 48 + n % 10 :=
        dchar_toNat _ (Nat.mod_lt _ (by omega))
      simp only [List.foldl_cons, List.foldl_nil, List.length_cons,
        List.length_nil, hmod]
      have : 10 * (a * 10 ^ (numRender (f + 1) (n / 10)).length + n / 10)
          + (48 + n % 10 - 48)
          = a * 10 ^ ((numRender (f + 1) (n / 10)).length + (0 + 1))
          + (10 * (n / 10) + n % 10) := by
        rw [pow_succ]
        ring_nf
        omega
      rw [this, Nat.div_add_mod]

theorem numChars_val (n : Nat) :
    (numChars n).foldl (fun acc c => 10 * acc + (c.toNat - 48)) 0 = n := by
  have := numRender_eval n n 0 (le_refl n)
  simpa [numChars] using this

theorem numChars_injective : Function.Injective numChars := by
  intro a b h
  have ha := numChars_val a
  have hb := numChars_val b
  rw [h] at ha
  omega

theorem numChars_ne_nil (n : Nat) : numChars n ≠ [] := by
  rw [numChars, numRender]
  by_cases h : n < 10 <;> simp [h]

theorem candC_injective (newName : List Char) : Function.Injective (candC newName) := by
  intro a b h
  rw [candC, candC] at h
  have h1 := List.append_cancel_left h
  have h2 := List.append_cancel_right h1
  exact numChars_injective h2

theorem candR_injective (path newName : List Char) :
    Function.Injective (candR path newName) := by
  intro a b h
  rw [candR, candR] at h
  have h1 := List.append_cancel_left h
  have h3 : numChars a ++ extR path newName = numChars b ++ extR path newName := by
    injection h1
  have h4 := List.append_cancel_right h3
  exact numChars_injective h4

theorem probeFrom_spec (fs : List (List Char)) (mk : Nat → List Char) :
    ∀ (fuel k : Nat) (c : List Char), probeFrom fs mk fuel k = some c →
      ∃ j, j < fuel ∧ c = mk (k + j) ∧ mk (k + j) ∉ fs ∧
        ∀ i, i < j → mk (k + i) ∈ fs := by
  intro fuel
  induction fuel with
  | zero => intro k c h; simp [probeFrom] at h
  | succ f ih =>
    intro k c h
    rw [probeFrom] at h
    by_cases hmem : mk k ∈ fs
    · rw [if_pos hmem] at h
      obtain ⟨j, hj, hc, hnot, hall⟩ := ih (k + 1) c h
      refine ⟨j + 1, by omega, by rw [hc]; ring_nf, ?_, ?_⟩
      · have : k + 1 + j = k + (j + 1) := by ring
        rwa [this] at hnot
      · intro i hi
        cases i with
        | zero => simpa using hmem
        | succ i' =>
          have : k + (i' + 1) = k + 1 + i' := by ring
          rw [this]
          exact hall i' (by omega)
    · rw [if_neg hmem] at h
      exact ⟨0, by omega, by simpa using h.symm, by simpa using hmem, by omega⟩

theorem probeFrom_total (fs : List (List Char)) (mk : Nat → List Char) :
    ∀ (fuel k : Nat), (∃ j, j < fuel ∧ mk (k + j) ∉ fs) →
      (probeFrom fs mk fuel k).isSome = true := by
  intro fuel
  induction fuel with
  | zero => intro k h; obtain ⟨j, hj, _⟩ := h; omega
  | succ f ih =>
    intro k h
    obtain ⟨j, hj, hfree⟩ := h
    rw [probeFrom]
    by_cases hmem : mk k ∈ fs
    · rw [if_pos hmem]
      apply ih
      cases j with
      | zero => exact absurd (by simpa using hmem) hfree
      | succ j' =>
        refine ⟨j', by omega, ?_⟩
        have : k + 1 + j' = k + (j' + 1) := by ring
        rwa [this]
    · rw [if_neg hmem]
      rfl

theorem pigeonhole_probe (fs : List (List Char)) (mk : Nat → List Char)
    (hinj : Function.Injective mk) :
    ∃ j, j < fs.length + 1 ∧ mk (1 + j) ∉ fs := by
  by_contra hall
  push_neg at hall
  have hsub : ((List.range (fs.length + 1)).map (fun j => mk (1 + j))) ⊆ fs := by
    intro c hc
    obtain ⟨j, hj, rfl⟩ := List.mem_map.mp hc
    exact hall j (List.mem_range.mp hj)
  have hnd : ((List.range (fs.length + 1)).map (fun j => mk (1 + j))).Nodup := by
    refine List.Nodup.map ?_ (List.nodup_range _)
    intro a b hab
    have := hinj hab
    omega
  have hlen := (hnd.subperm hsub).length_le
  simp at hlen

theorem findTarget_not_mem (fs : List (List Char)) (init : List Char)
    (mk : Nat → List Char) (fuel : Nat) (c : List Char)
    (h : findTarget fs init mk fuel = some c) : c ∉ fs := by
  rw [findTarget] at h
  by_cases hmem : init ∈ fs
  · rw [if_pos hmem] at h
    obtain ⟨j, _, hc, hnot, _⟩ := probeFrom_spec fs mk fuel 1 c h
    exact hc ▸ hnot
  · rw [if_neg hmem] at h
    exact (Option.some.inj h) ▸ hmem

theorem findTarget_spec (fs : List (List Char)) (init : List Char)
    (mk : Nat → List Char) (fuel : Nat) (c : List Char)
    (h : findTarget fs init mk fuel = some c) :
    (init ∉ fs ∧ c = init) ∨
      (init ∈ fs ∧ ∃ k, 1 ≤ k ∧ c = mk k ∧ mk k ∉ fs ∧
        ∀ i, 1 ≤ i → i < k → mk i ∈ fs) := by
  rw [findTarget] at h
  by_cases hmem : init ∈ fs
  · rw [if_pos hmem] at h
    obtain ⟨j, _, hc, hnot, hall⟩ := probeFrom_spec fs mk fuel 1 c h
    refine Or.inr ⟨hmem, 1 + j, by omega, hc, hnot, ?_⟩
    intro i h1 h2
    have : i = 1 + (i - 1) := by omega
    rw [this]
    exact hall (i - 1) (by omega)
  · rw [if_neg hmem] at h
    exact Or.inl ⟨hmem, (Option.some.inj h).symm⟩

theorem findTarget_isSome (fs : List (List Char)) (init : List Char)
    (mk : Nat → List Char) (hinj : Function.Injective mk) :
    (findTarget fs init mk (fs.length + 1)).isSome = true := by
  rw [findTarget]
  by_cases hmem : init ∈ fs
  · rw [if_pos hmem]
    obtain ⟨j, hj, hfree⟩ := pigeonhole_probe fs mk hinj
    exact probeFrom_total fs mk (fs.length + 1) 1 ⟨j, hj, hfree⟩
  · rw [if_neg hmem]
    rfl

theorem splitext_append (s : List Char) : (splitext s).1 ++ (splitext s).2 = s := by
  rw [splitext]
  cases h : s.reverse.findIdx? (fun c => c = '.') with
  | none => simp
  | some i =>
    by_cases hp : (s.takeWhile (fun c => c = '.')).length < s.length - 1 - i
    · simp [hp, List.take_append_drop]
    · simp [hp]

/-! Lemmas about the rename candidates and the batch loops. -/

theorem candC_ne (newName : List Char) (k : Nat) : candC newName k ≠ newName := by
  intro h
  have hlen : (candC newName k).length = newName.length := congrArg List.length h
  have h2 : (splitext newName).1.length + (splitext newName).2.length
      = newName.length := by
    simpa using congrArg List.length (splitext_append newName)
  have h3 : (numChars k).length ≠ 0 := by
    simpa [List.length_eq_zero] using numChars_ne_nil k
  rw [candC] at hlen
  simp [List.length_append] at hlen
  omega

theorem candR_ne (path newName : List Char) (k : Nat) :
    candR path newName k ≠ initR path newName := by
  intro h
  have hlen := congrArg List.length h
  rw [candR, initR] at hlen
  simp [List.length_append] at hlen
  omega

theorem initR_self (name : List Char) : initR name name = name := by
  rw [initR, extR, ite_self]
  exact splitext_append name

theorem runBatchGuarded_all_ok {α ε : Type} (f : α → Except ε Unit) :
    ∀ l : List α, (∀ x ∈ l, f x = .ok ()) → runBatchGuarded f l = (l.length, []) := by
  intro l
  induction l with
  | nil => intro _; rfl
  | cons x xs ih =>
    intro h
    rw [runBatchGuarded, ih (fun y hy => h y (List.mem_cons_of_mem _ hy)),
      h x (List.mem_cons_self _ _)]
    simp

theorem runBatchGuarded_one_fail {α ε : Type} (f : α → Except ε Unit)
    (bad : α) (post : List α) (e : ε)
    (hpost : ∀ x ∈ post, f x = .ok ()) (hbad : f bad = .error e) :
    ∀ pre : List α, (∀ x ∈ pre, f x = .ok ()) →
      runBatchGuarded f (pre ++ bad :: post)
        = (pre.length + post.length, [(bad, e)]) := by
  intro pre
  induction pre with
  | nil =>
    intro _
    rw [List.nil_append, runBatchGuarded, runBatchGuarded_all_ok f post hpost, hbad]
    simp
  | cons x xs ih =>
    intro hpre
    have hx := hpre x (List.mem_cons_self _ _)
    rw [List.cons_append, runBatchGuarded,
      ih (fun y hy => hpre y (List.mem_cons_of_mem _ hy)), hx]
    simp
    omega

theorem renameMainLoop_all_ok {α ε : Type} (gen : α → Except ε (List Char))
    (o : NameOpts) (ext : α → List Char) (ren : α → List Char → Except ε Unit) :
    ∀ l : List α,
      (∀ x ∈ l, ∃ s, gen x = .ok s ∧ ren x (applyOptsR o s ++ ext x) = .ok ()) →
      renameMainLoop gen o ext ren l = (l.length, []) := by
  intro l
  induction l with
  | nil => intro _; rfl
  | cons x xs ih =>
    intro h
    obtain ⟨s, hs, hr⟩ := h x (List.mem_cons_self _ _)
    rw [renameMainLoop, ih (fun y hy => h y (List.mem_cons_of_mem _ hy)), hs]
    simp [hr]

theorem renameMainLoop_one_fail {α ε : Type} (gen : α → Except ε (List Char))
    (o : NameOpts) (ext : α → List Char) (ren : α → List Char → Except ε Unit)
    (bad : α) (post : List α) (e : ε)
    (hpost : ∀ x ∈ post, ∃ s, gen x = .ok s ∧ ren x (applyOptsR o s ++ ext x) = .ok ())
    (hbad : gen bad = .error e ∨
      ∃ s, gen bad = .ok s ∧ ren bad (applyOptsR o s ++ ext bad) = .error e) :
    ∀ pre : List α,
      (∀ x ∈ pre, ∃ s, gen x = .ok s ∧ ren x (applyOptsR o s ++ ext x) = .ok ()) →
      renameMainLoop gen o ext ren (pre ++ bad :: post)
        = (pre.length + post.length, [(bad, e)]) := by
  intro pre
  induction pre with
  | nil =>
    intro _
    rw [List.nil_append, renameMainLoop,
      renameMainLoop_all_ok gen o ext ren post hpost]
    rcases hbad with hb | ⟨s, hs, hr⟩
    · rw [hb]
      simp
    · rw [hs]
      simp [hr]
  | cons x xs ih =>
    intro hpre
    obtain ⟨s, hs, hr⟩ := hpre x (List.mem_cons_self _ _)
    rw [List.cons_append, renameMainLoop,
      ih (fun y hy => hpre y (List.mem_cons_of_mem _ hy)), hs]
    simp [hr]
    omega

theorem captionBatchLoop_one_fail {α ε : Type} (f : α → Except ε Unit)
    (bad : α) (post : List α) (e : ε) (hbad : f bad = .error e) :
    ∀ pre : List α, (∀ x ∈ pre, f x = .ok ()) →
      captionBatchLoop f (pre ++ bad :: post) = (pre, some e) := by
  intro pre
  induction pre with
  | nil =>
    intro _
    rw [List.nil_append, captionBatchLoop, hbad]
  | cons x xs ih =>
    intro hpre
    rw [List.cons_append, captionBatchLoop, hpre x (List.mem_cons_self _ _),
      ih (fun y hy => hpre y (List.mem_cons_of_mem _ hy))]

theorem callOk_convert_ro : callOk convertImageParams 2 ["remove_original"] = false := by
  decide

theorem callOk_convert_out : callOk convertImageParams 2 ["out_path"] = false := by
  decide

theorem callOk_resize_out : callOk maxSizeParams 3 ["out_path"] = false := by decide

theorem callOk_compress_out : callOk compressImageParams 2 ["out_path"] = false := by
  decide

/-! Claim theorems. -/

/-- C7: `normalise` is idempotent, `normalise (normalise s) = normalise s`
for every string, in the rename.py variant (including when the fallback token
`"image"` is produced) and in the caption.py variant. -/
theorem c7_normalise_idempotent (s : List Char) :
    normaliseR (normaliseR s) = normaliseR s
    ∧ normaliseC (normaliseC s) = normaliseC s :=
  ⟨normaliseR_idem s, normaliseC_idem s⟩

/-- C4 counterexample: the claim says every variant's `normalise` substitutes
the fallback token `"image"` for an empty result, but caption.py's
`normalise` maps `"!!!"` to the empty string, not to `"image"`. -/
theorem c4_counterexample :
    normaliseC (pstr "!!!") = [] ∧ normaliseC (pstr "!!!") ≠ pstr "image" := by
  decide

/-- C4 amended: both `normalise` variants keep only letters, digits and
spaces, collapse every whitespace run to a single space (`okRun true`) and
trim both ends; the rename.py variant substitutes the fallback token
`"image"` exactly when the cleaned result is empty (so it never returns the
empty string), while the caption.py variant has no fallback and returns the
empty string in that case. -/
theorem c4_normalise_spec_amended (s : List Char) :
    (∀ c ∈ normaliseC s, c.isAlpha = true ∨ c.isDigit = true ∨ c = ' ')
    ∧ (∀ c ∈ normaliseR s, c.isAlpha = true ∨ c.isDigit = true ∨ c = ' ')
    ∧ headNotSpB (normaliseC s) = true ∧ lastNotSpB (normaliseC s) = true
    ∧ okRun true (normaliseC s)
    ∧ normaliseR s
        = (if (normaliseC s).isEmpty then pstr "image" else normaliseC s)
    ∧ normaliseR s ≠ [] := by
  refine ⟨fun c hc => (normaliseC_mem s c hc).1, ?_, normaliseC_headNotSpB s,
    normaliseC_lastNotSpB s, normaliseC_okRun s, normaliseR_eq s, ?_⟩
  · intro c hc
    rw [normaliseR_eq s] at hc
    by_cases h : (normaliseC s).isEmpty
    · rw [if_pos h] at hc
      revert hc
      revert c
      decide
    · rw [if_neg h] at hc
      exact (normaliseC_mem s c hc).1
  · rw [normaliseR_eq s]
    by_cases h : (normaliseC s).isEmpty
    · rw [if_pos h]
      decide
    · rw [if_neg h]
      simpa [List.isEmpty_iff] using h

/-- C4 witness: the amended theorem instantiated at a concrete input with the
membership hypotheses discharged. -/
theorem c4_witness :
    ('a'.isAlpha = true ∨ 'a'.isDigit = true ∨ 'a' = ' ')
    ∧ headNotSpB (normaliseC (pstr " a!b ")) = true :=
  ⟨(c4_normalise_spec_amended (pstr " a!b ")).1 'a' (by decide),
    (c4_normalise_spec_amended (pstr " a!b ")).2.2.1⟩

/-- C6: the naming chain applies normalise, then glue, then prefix, then
suffix, then case, in that fixed order (disabled steps are skipped, never
reordered), and on caption text `"a red car on a street"` with glue `"-"`
and title case the generated name is exactly `"A-Red-Car-On-A-Street"`. -/
theorem c6_chain_order :
    (∀ (o : NameOpts) (s : List Char),
      applyOptsR o s
        = caseStep o (sufStep o (preStep o (glueStep o (normaliseR s)))))
    ∧ applyOptsR ⟨some (pstr "-"), none, none, some (pstr "title")⟩
        (pstr "a red car on a street") = pstr "A-Red-Car-On-A-Street" := by
  exact ⟨fun o s => rfl, by decide⟩

/-- C10: an empty-string naming flag is treated as disabled in all three
driver variants, because enablement is tested by Python string truthiness;
in particular an empty glue separator never deletes the spaces of a name. -/
theorem c10_empty_flag_disabled :
    (∀ (p s c : Option (List Char)) (name : List Char),
      applyOptsR ⟨some [], p, s, c⟩ name = applyOptsR ⟨none, p, s, c⟩ name
      ∧ applyOptsCli ⟨some [], p, s, c⟩ name = applyOptsCli ⟨none, p, s, c⟩ name
      ∧ applyOptsC ⟨some [], p, s, c⟩ name = applyOptsC ⟨none, p, s, c⟩ name)
    ∧ (∀ (g s c : Option (List Char)) (name : List Char),
      applyOptsR ⟨g, some [], s, c⟩ name = applyOptsR ⟨g, none, s, c⟩ name)
    ∧ (∀ (g p c : Option (List Char)) (name : List Char),
      applyOptsR ⟨g, p, some [], c⟩ name = applyOptsR ⟨g, p, none, c⟩ name)
    ∧ ' ' ∈ applyOptsR ⟨some [], none, none, none⟩ (pstr "red car") := by
  refine ⟨fun p s c name => ⟨rfl, rfl, rfl⟩, fun g s c name => rfl,
    fun g p c name => rfl, by decide⟩

/-- C2: both `rename_file` variants are collision-safe. The probe always
terminates within `|fs| + 1` steps; whenever it selects a target, that target
is not among the existing names `fs`; when the desired name collides, the
selected target is the suffixed candidate with the least counter `k ≥ 1`
whose name is free (so successive probes use strictly increasing counters
starting at 1); and concretely, desired `"image.png"` with `"image.png"`
present yields `"image1.png"` (caption.py) or `"image_1.png"` (rename.py),
and `"image2.png"` / `"image_2.png"` when that is also taken. -/
theorem c2_collision_safe_rename (fs : List (List Char)) (newName path : List Char) :
    ((renameTargetC fs newName (fs.length + 1)).isSome = true
      ∧ (renameTargetR fs path newName (fs.length + 1)).isSome = true)
    ∧ (∀ fuel c, renameTargetC fs newName fuel = some c → c ∉ fs)
    ∧ (∀ fuel c, renameTargetR fs path newName fuel = some c → c ∉ fs)
    ∧ (newName ∈ fs → ∀ fuel c, renameTargetC fs newName fuel = some c →
        ∃ k, 1 ≤ k ∧ c = candC newName k ∧ candC newName k ∉ fs ∧
          ∀ i, 1 ≤ i → i < k → candC newName i ∈ fs)
    ∧ (initR path newName ∈ fs → ∀ fuel c,
        renameTargetR fs path newName fuel = some c →
        ∃ k, 1 ≤ k ∧ c = candR path newName k ∧ candR path newName k ∉ fs ∧
          ∀ i, 1 ≤ i → i < k → candR path newName i ∈ fs)
    ∧ renameTargetC [pstr "image.png"] (pstr "image.png") 2
        = some (pstr "image1.png")
    ∧ renameTargetC [pstr "image.png", pstr "image1.png"] (pstr "image.png") 3
        = some (pstr "image2.png")
    ∧ renameTargetR [pstr "image.png"] (pstr "photo.png") (pstr "image.png") 2
        = some (pstr "image_1.png")
    ∧ renameTargetR [pstr "image.png", pstr "image_1.png"] (pstr "photo.png")
        (pstr "image.png") 3 = some (pstr "image_2.png") := by
  refine ⟨⟨findTarget_isSome fs newName _ (candC_injective newName),
      findTarget_isSome fs _ _ (candR_injective path newName)⟩,
    fun fuel c h => findTarget_not_mem fs newName _ fuel c h,
    fun fuel c h => findTarget_not_mem fs _ _ fuel c h, ?_, ?_,
    by decide, by decide, by decide, by decide⟩
  · intro hmem fuel c h
    rcases findTarget_spec fs newName _ fuel c h with ⟨hno, _⟩ | ⟨_, k, hk⟩
    · exact absurd hmem hno
    · exact ⟨k, hk⟩
  · intro hmem fuel c h
    rcases findTarget_spec fs (initR path newName) _ fuel c h with ⟨hno, _⟩ | ⟨_, k, hk⟩
    · exact absurd hmem hno
    · exact ⟨k, hk⟩

/-- C2 witness: the no-overwrite conjunct applied to a concrete collision. -/
theorem c2_witness :
    renameTargetC [pstr "image.png"] (pstr "image.png") 2 = some (pstr "image1.png")
    ∧ pstr "image1.png" ∉ [pstr "image.png"] :=
  ⟨by decide,
    (c2_collision_safe_rename [pstr "image.png"] (pstr "image.png")
      (pstr "photo.png")).2.1 2 (pstr "image1.png") (by decide)⟩

/-- C9: renaming a file to its own current name is never a no-op in either
variant — the current path is found occupied (by the file itself), so the
selected target is the first free suffixed candidate, which differs from the
original name; and the probe terminates. -/
theorem c9_rename_to_own_name (fs : List (List Char)) (name : List Char)
    (hmem : name ∈ fs) :
    (∀ fuel c, renameTargetC fs name fuel = some c →
      c ≠ name ∧ ∃ k, 1 ≤ k ∧ c = candC name k ∧ c ∉ fs ∧
        ∀ i, 1 ≤ i → i < k → candC name i ∈ fs)
    ∧ (∀ fuel c, renameTargetR fs name name fuel = some c →
      c ≠ name ∧ ∃ k, 1 ≤ k ∧ c = candR name name k ∧ c ∉ fs ∧
        ∀ i, 1 ≤ i → i < k → candR name name i ∈ fs)
    ∧ (renameTargetC fs name (fs.length + 1)).isSome = true
    ∧ (renameTargetR fs name name (fs.length + 1)).isSome = true := by
  refine ⟨?_, ?_, findTarget_isSome fs name _ (candC_injective name),
    findTarget_isSome fs _ _ (candR_injective name name)⟩
  · intro fuel c h
    rcases findTarget_spec fs name _ fuel c h with ⟨hno, _⟩ | ⟨_, k, h1, hc, hfree, hmin⟩
    · exact absurd hmem hno
    · exact ⟨hc ▸ candC_ne name k, k, h1, hc, hc ▸ hfree, hmin⟩
  · intro fuel c h
    have hmem' : initR name name ∈ fs := by rwa [initR_self name]
    rcases findTarget_spec fs (initR name name) _ fuel c h with ⟨hno, _⟩ | ⟨_, k, h1, hc, hfree, hmin⟩
    · exact absurd hmem' hno
    · refine ⟨?_, k, h1, hc, hc ▸ hfree, hmin⟩
      intro hcn
      exact candR_ne name name k (by rw [← hc, hcn, initR_self name])

/-- C9 witness: a concrete file colliding with itself is pushed to the first
suffixed candidate, never kept at its own name. -/
theorem c9_witness :
    renameTargetC [pstr "photo.png"] (pstr "photo.png") 2 = some (pstr "photo1.png")
    ∧ pstr "photo1.png" ≠ pstr "photo.png" :=
  ⟨by decide,
    ((c9_rename_to_own_name [pstr "photo.png"] (pstr "photo.png") (by decide)).1
      2 (pstr "photo1.png") (by decide)).1⟩

/-- C5 counterexample: the claim says every variant's `rename_file` reuses
the original file's extension when the supplied name has none, but
caption.py's variant renames `photo.png` to the bare name `image` — the
result does not end in `".png"` (the original path is not even consulted). -/
theorem c5_counterexample :
    renameTargetC [pstr "photo.png"] (pstr "image") 2 = some (pstr "image")
    ∧ ¬ (pstr ".png" <:+ pstr "image") := by
  decide

/-- C5 amended: in the rename.py variant, whenever the supplied new name has
no extension, every name `rename_file` can rename the file to carries the
original file's extension; the caption.py variant does not have this
property. -/
theorem c5_extension_reuse_amended (fs : List (List Char)) (path newName : List Char)
    (hext : (splitext newName).2 = []) (fuel : Nat) (c : List Char)
    (h : renameTargetR fs path newName fuel = some c) :
    (splitext path).2 <:+ c := by
  have hextR : extR path newName = (splitext path).2 := by
    rw [extR, if_pos (by simp [hext])]
  rcases findTarget_spec fs (initR path newName) _ fuel c h with ⟨_, hc⟩ | ⟨_, k, _, hc, _⟩
  · rw [hc, initR, hextR]
    exact ⟨(splitext newName).1, rfl⟩
  · rw [hc, candR, hextR]
    exact ⟨(splitext newName).1 ++ '_' :: numChars k, by simp⟩

/-- C5 witness: the amended theorem at a concrete input — renaming
`photo.png` to bare `image` via rename.py's variant produces a `.png`
name. -/
theorem c5_witness : pstr ".png" <:+ pstr "image.png" :=
  c5_extension_reuse_amended [] (pstr "photo.png") (pstr "image") (by decide)
    1 (pstr "image.png") (by decide)

/-- C8: whenever cli.py's convert subcommand is invoked with `--format` (in
either output mode), or with `--max-width`/`--max-height` or `--compress` in
the default alternate-folder mode, `process_one` calls a convert.py function
with a keyword argument (`remove_original` or `out_path`) it does not accept,
so the call raises `TypeError` and no image operation completes. -/
theorem c8_cli_convert_typeerror (a : CArgs)
    (h : a.format.isSome = true ∨ (a.replace = false ∧
      (a.maxWidth.isSome = true ∨ a.maxHeight.isSome = true
        ∨ a.compress.isSome = true))) :
    processOneCli a = ([], some "TypeError") := by
  obtain ⟨f, mw, mh, q, r⟩ := a
  cases f <;> cases mw <;> cases mh <;> cases q <;> cases r <;>
    simp_all [processOneCli, attemptCall, callOk_convert_ro, callOk_convert_out,
      callOk_resize_out, callOk_compress_out]

/-- C8 witness: `imaginer convert img --format webp` (default output mode)
completes no operation and raises `TypeError`. -/
theorem c8_witness :
    processOneCli ⟨some "webp", none, none, none, false⟩ = ([], some "TypeError") :=
  c8_cli_convert_typeerror ⟨some "webp", none, none, none, false⟩ (Or.inl rfl)

/-- C3 counterexample: the claim says a single file with an unrecognized
extension yields exit code 2 in every CLI variant, but rename.py's
`__main__` raises `SystemExit(1)` for an existing `.txt` file. -/
theorem c3_counterexample :
    renameMainExit false true (pstr ".txt") = 1
    ∧ renameMainExit false true (pstr ".txt") ≠ 2 := by
  decide

/-- C3 amended: in the cli.py variant (both subcommands), a single-file
invocation exits 0 on success, 1 when processing the file raises, and 2 when
the extension is not recognized or the path does not exist; in the
unsupported and missing cases `process_one` is never invoked. rename.py's
`__main__` instead exits 1 for an unsupported or missing single path and 0
regardless of per-file processing errors. -/
theorem c3_exit_codes_amended (k : PathKind) (sfx : List Char)
    (proc : Except String Unit) :
    ((k = .file ∧ lowerL sfx ∈ imageExtsConv ∧ proc = .ok ()) →
      handleConvertExit k sfx proc = 0 ∧ handleRenameExit k sfx proc = 0)
    ∧ (∀ e, (k = .file ∧ lowerL sfx ∈ imageExtsConv ∧ proc = .error e) →
      handleConvertExit k sfx proc = 1 ∧ handleRenameExit k sfx proc = 1)
    ∧ ((k = .file ∧ lowerL sfx ∉ imageExtsConv) →
      handleConvertExit k sfx proc = 2 ∧ handleRenameExit k sfx proc = 2
      ∧ handleConvertTouches k sfx = false ∧ handleRenameTouches k sfx = false)
    ∧ (k = .missing →
      handleConvertExit k sfx proc = 2 ∧ handleRenameExit k sfx proc = 2
      ∧ handleConvertTouches k sfx = false ∧ handleRenameTouches k sfx = false) := by
  refine ⟨?_, ?_, ?_, ?_⟩
  · rintro ⟨rfl, hm, rfl⟩
    simp [handleConvertExit, handleRenameExit, hm]
  · rintro e ⟨rfl, hm, rfl⟩
    simp [handleConvertExit, handleRenameExit, hm]
  · rintro ⟨rfl, hm⟩
    simp [handleConvertExit, handleRenameExit, handleConvertTouches,
      handleRenameTouches, hm]
  · rintro rfl
    simp [handleConvertExit, handleRenameExit, handleConvertTouches,
      handleRenameTouches]

/-- C3 witness: the amended theorem at a concrete unsupported single file
(`.txt`): both cli.py handlers exit 2 without touching the file. -/
theorem c3_witness :
    handleConvertExit .file (pstr ".txt") (.ok ()) = 2
    ∧ handleRenameExit .file (pstr ".txt") (.ok ()) = 2
    ∧ handleConvertTouches .file (pstr ".txt") = false
    ∧ handleRenameTouches .file (pstr ".txt") = false :=
  (c3_exit_codes_amended .file (pstr ".txt") (.ok ())).2.2.1 ⟨rfl, by decide⟩

/-- C1 counterexample: the claim says a failing file is caught, recorded and
skipped in every driver variant, but caption.py's loop guards nothing — a
caption failure on `a.png` escapes, the batch aborts, and `b.png` is never
processed. -/
theorem c1_counterexample :
    captionBatchLoop
      (fun s : List Char =>
        if s = pstr "a.png" then Except.error "CaptionError" else Except.ok ())
      [pstr "a.png", pstr "b.png"]
      = ([], some "CaptionError") := by
  decide

/-- C1 amended: in the drivers of convert.py, cli.py (`convert` and `rename`)
the whole per-file body is guarded, and in rename.py's driver the two
fallible steps (caption generation and renaming) are individually guarded:
for any worklist in which exactly one file fails, those drivers process the
remaining files and report exactly that one failure. In caption.py's driver
no exception is caught: the batch aborts at the failing file and only the
files before it are processed. -/
theorem c1_batch_isolation_amended {α ε : Type} (f : α → Except ε Unit)
    (gen : α → Except ε (List Char)) (o : NameOpts) (ext : α → List Char)
    (ren : α → List Char → Except ε Unit)
    (pre post : List α) (bad : α) (e : ε)
    (hpre : ∀ x ∈ pre, f x = .ok ()) (hpost : ∀ x ∈ post, f x = .ok ())
    (hbad : f bad = .error e)
    (hpreg : ∀ x ∈ pre, ∃ s, gen x = .ok s ∧ ren x (applyOptsR o s ++ ext x) = .ok ())
    (hpostg : ∀ x ∈ post, ∃ s, gen x = .ok s ∧ ren x (applyOptsR o s ++ ext x) = .ok ())
    (hbadg : gen bad = .error e ∨
      ∃ s, gen bad = .ok s ∧ ren bad (applyOptsR o s ++ ext bad) = .error e) :
    runBatchGuarded f (pre ++ bad :: post) = (pre.length + post.length, [(bad, e)])
    ∧ renameMainLoop gen o ext ren (pre ++ bad :: post)
        = (pre.length + post.length, [(bad, e)])
    ∧ captionBatchLoop f (pre ++ bad :: post) = (pre, some e) :=
  ⟨runBatchGuarded_one_fail f bad post e hpost hbad pre hpre,
    renameMainLoop_one_fail gen o ext ren bad post e hpostg hbadg pre hpreg,
    captionBatchLoop_one_fail f bad post e hbad pre hpre⟩

/-- C1 witness: a concrete three-file batch in which only `bad.png` fails:
the guarded drivers process the other two files and report the single
failure, while caption.py's driver aborts after `a.png`. -/
theorem c1_witness :
    runBatchGuarded
      (fun s : List Char =>
        if s = pstr "bad.png" then Except.error "E" else Except.ok ())
      [pstr "a.png", pstr "bad.png", pstr "c.png"]
      = (2, [(pstr "bad.png", "E")])
    ∧ captionBatchLoop
      (fun s : List Char =>
        if s = pstr "bad.png" then Except.error "E" else Except.ok ())
      [pstr "a.png", pstr "bad.png", pstr "c.png"]
      = ([pstr "a.png"], some "E") := by
  have h := c1_batch_isolation_amended
    (fun s : List Char =>
      if s = pstr "bad.png" then Except.error "E" else Except.ok ())
    (fun s : List Char =>
      if s = pstr "bad.png" then Except.error "E" else Except.ok (pstr "x"))
    ⟨none, none, none, none⟩ (fun _ => ([] : List Char)) (fun _ _ => Except.ok ())
    [pstr "a.png"] [pstr "c.png"] (pstr "bad.png") "E"
    (by decide) (by decide) (by decide)
    (by
      intro x hx
      rw [List.mem_singleton] at hx
      subst hx
      exact ⟨pstr "x", rfl, rfl⟩)
    (by
      intro x hx
      rw [List.mem_singleton] at hx
      subst hx
      exact ⟨pstr "x", rfl, rfl⟩)
    (Or.inl (by decide))
  exact ⟨h.1, h.2.2⟩

end Imaginer

